import Mathlib

/-!
Verification of the bitconv library (src/lib.rs): six bounds-checked
integer decode operations built on one shared extraction macro, with
endianness chosen by a zero-sized marker type implementing the
BitConvEndian trait.

Byte buffers are modelled as `List (Fin 256)` (Rust `&[u8]`).  The
panicking failure path (`expect` / `unwrap`) is modelled by returning
`Except.error msg`, so that the failure and its message are observable.
The platform's native byte order (`from_ne_bytes`) is an explicit
parameter `nativeLE : Bool` (true on a little-endian host).
-/

namespace BitConv

/-- Rust enum `endian::Endian` with variants LE, BE, NE. -/
inductive Endian
  | LE
  | BE
  | NE
deriving DecidableEq

/-- Model of the trait `BitConvEndian`: a marker type is characterised by
what its `as_endian` method returns; the trait's default body returns
`Endian::NE`, which is the default field value here. -/
structure BitConvEndian where
  as_endian : Endian := Endian.NE

/-- Marker type `endian::Little`, whose impl returns `Endian::LE`. -/
def Little : BitConvEndian := { as_endian := Endian.LE }

/-- Marker type `endian::Big`, whose impl returns `Endian::BE`. -/
def Big : BitConvEndian := { as_endian := Endian.BE }

/-- Marker type `endian::Native`, which keeps the trait's default body. -/
def Native : BitConvEndian := {}

/-- A Rust `u8`. -/
abbrev Byte := Fin 256

/-- `<uN>::from_le_bytes`: byte 0 is least significant. -/
def from_le_bytes (bs : List Byte) : Nat :=
  bs.foldr (fun b acc => b.val + 256 * acc) 0

/-- `<uN>::from_be_bytes`: byte 0 is most significant. -/
def from_be_bytes (bs : List Byte) : Nat :=
  bs.foldl (fun acc b => 256 * acc + b.val) 0

/-- Two's-complement reinterpretation of a w-byte unsigned value, as done
by `<iN>::from_xx_bytes` on the same bit pattern. -/
def toSigned (w : Nat) (v : Nat) : Int :=
  if v < 2 ^ (8 * w - 1) then (v : Int) else (v : Int) - 2 ^ (8 * w)

/-- The decode function the macro's `match` selects for an unsigned
target type, given the platform's native order. -/
def pickU (nativeLE : Bool) : Endian → List Byte → Nat
  | Endian.LE => from_le_bytes
  | Endian.BE => from_be_bytes
  | Endian.NE => if nativeLE then from_le_bytes else from_be_bytes

/-- The decode function the macro's `match` selects for a signed target
type of w bytes. -/
def pickI (nativeLE : Bool) (w : Nat) (e : Endian) (bs : List Byte) : Int :=
  toSigned w (pickU nativeLE e bs)

/-- Rust slice `data.get(start..)`: the suffix from `start`, or `None`
when `start` exceeds the length. -/
def getFrom (data : List Byte) (start : Nat) : Option (List Byte) :=
  if start ≤ data.length then some (data.drop start) else none

/-- Rust slice `bytes.get(..w)`: the first w bytes, or `None` when fewer
than w are present. -/
def getTo (bs : List Byte) (w : Nat) : Option (List Byte) :=
  if w ≤ bs.length then some (bs.take w) else none

/-- Rust `TryInto<[u8; w]>` for a slice: succeeds exactly when the length
is exactly w. -/
def tryIntoArray (w : Nat) (bs : List Byte) : Option (List Byte) :=
  if bs.length = w then some bs else none

/-- The panic message of `Option::unwrap` on `None`. -/
def UNWRAP_MSG : String := "called Option::unwrap on a None value"

/-- The body of the `BitConvImpl!` macro: slice from `start`, slice the
first w bytes of that, convert the slice to an exact-size array and
decode it with `f`; `expect` turns the `None` of either slice operation
into a panic carrying `msg`. -/
def BitConvImpl (f : List Byte → α) (w : Nat) (data : List Byte)
    (start : Nat) (msg : String) : Except String α :=
  match (getFrom data start).bind (fun bs => getTo bs w) with
  | none => Except.error msg
  | some bs =>
    match tryIntoArray w bs with
    | some exact => Except.ok (f exact)
    | none => Except.error UNWRAP_MSG

/-- The const array `ERROR_MESSAGES`. -/
def ERROR_MESSAGES : List String :=
  [ "Failed to read i16. Invalid buffer provided.",
    "Failed to read i32. Invalid buffer provided.",
    "Failed to read i64. Invalid buffer provided.",
    "Failed to read u16. Invalid buffer provided.",
    "Failed to read u32. Invalid buffer provided.",
    "Failed to read u64. Invalid buffer provided." ]

/-- `to_int16::<T>(data, start_index)`. -/
def to_int16 (T : BitConvEndian) (nativeLE : Bool) (data : List Byte)
    (start_index : Nat) : Except String Int :=
  BitConvImpl (pickI nativeLE 2 T.as_endian) 2 data start_index
    (ERROR_MESSAGES.getD 0 "")

/-- `to_int32::<T>(data, start_index)`. -/
def to_int32 (T : BitConvEndian) (nativeLE : Bool) (data : List Byte)
    (start_index : Nat) : Except String Int :=
  BitConvImpl (pickI nativeLE 4 T.as_endian) 4 data start_index
    (ERROR_MESSAGES.getD 1 "")

/-- `to_int64::<T>(data, start_index)`. -/
def to_int64 (T : BitConvEndian) (nativeLE : Bool) (data : List Byte)
    (start_index : Nat) : Except String Int :=
  BitConvImpl (pickI nativeLE 8 T.as_endian) 8 data start_index
    (ERROR_MESSAGES.getD 2 "")

/-- `to_uint16::<T>(data, start_index)`. -/
def to_uint16 (T : BitConvEndian) (nativeLE : Bool) (data : List Byte)
    (start_index : Nat) : Except String Nat :=
  BitConvImpl (pickU nativeLE T.as_endian) 2 data start_index
    (ERROR_MESSAGES.getD 3 "")

/-- `to_uint32::<T>(data, start_index)`. -/
def to_uint32 (T : BitConvEndian) (nativeLE : Bool) (data : List Byte)
    (start_index : Nat) : Except String Nat :=
  BitConvImpl (pickU nativeLE T.as_endian) 4 data start_index
    (ERROR_MESSAGES.getD 4 "")

/-- `to_uint64::<T>(data, start_index)`. -/
def to_uint64 (T : BitConvEndian) (nativeLE : Bool) (data : List Byte)
    (start_index : Nat) : Except String Nat :=
  BitConvImpl (pickU nativeLE T.as_endian) 8 data start_index
    (ERROR_MESSAGES.getD 5 "")

/-! ### Helper lemmas about the shared extraction path -/

/-- In range, the macro body succeeds and decodes exactly the w-byte slice
starting at `start`. -/
theorem BitConvImpl_ok {α : Type} (f : List Byte → α) (w : Nat)
    (data : List Byte) (s : Nat) (msg : String) (h : s + w ≤ data.length) :
    BitConvImpl f w data s msg = Except.ok (f ((data.drop s).take w)) := by
  have hs : s ≤ data.length := le_trans (Nat.le_add_right s w) h
  have hw : w ≤ (data.drop s).length := by
    rw [List.length_drop]; omega
  have hlen : ((data.drop s).take w).length = w := by
    rw [List.length_take, List.length_drop]
    exact Nat.min_eq_left (by omega)
  simp only [BitConvImpl, getFrom, getTo, tryIntoArray, if_pos hs, if_pos hw,
    if_pos hlen, Option.some_bind]

/-- Out of range, the macro body fails with the supplied message. -/
theorem BitConvImpl_err {α : Type} (f : List Byte → α) (w : Nat)
    (data : List Byte) (s : Nat) (msg : String) (h : data.length < s + w) :
    BitConvImpl f w data s msg = Except.error msg := by
  rcases le_or_lt s data.length with hs | hs
  · have hw : ¬ w ≤ (data.drop s).length := by
      rw [List.length_drop]; omega
    simp only [BitConvImpl, getFrom, getTo, if_pos hs, if_neg hw,
      Option.some_bind]
  · have hs' : ¬ s ≤ data.length := by omega
    simp only [BitConvImpl, getFrom, if_neg hs', Option.none_bind]

/-- The little-endian decode of a list is its base-256 positional value
with digit 0 least significant. -/
theorem from_le_bytes_eq_sum (l : List Byte) :
    from_le_bytes l = ∑ i ∈ Finset.range l.length, (l.getD i 0).val * 256 ^ i := by
  induction l with
  | nil => simp [from_le_bytes]
  | cons b l ih =>
    have hstep : from_le_bytes (b :: l) = b.val + 256 * from_le_bytes l := rfl
    rw [hstep, ih, List.length_cons, Finset.sum_range_succ']
    simp only [List.getD_cons_succ, List.getD_cons_zero, pow_zero, mul_one,
      pow_succ, Finset.mul_sum]
    rw [Nat.add_comm]
    congr 1
    exact Finset.sum_congr rfl fun i _ => by ring

/-- The big-endian decode is the little-endian decode of the reversed list. -/
theorem from_be_bytes_eq_reverse (l : List Byte) :
    from_be_bytes l = from_le_bytes l.reverse := by
  rw [from_le_bytes, List.foldr_reverse, from_be_bytes]
  congr 1
  funext x y
  ring

/-- Spec-side formula: the little-endian value of the w bytes at `s`,
byte at index `s` least significant. -/
def specValueLE (data : List Byte) (s w : Nat) : Nat :=
  ∑ i ∈ Finset.range w, (data.getD (s + i) 0).val * 256 ^ i

/-- Spec-side formula: the big-endian value of the w bytes at `s`,
byte at index `s` most significant. -/
def specValueBE (data : List Byte) (s w : Nat) : Nat :=
  ∑ i ∈ Finset.range w, (data.getD (s + i) 0).val * 256 ^ (w - 1 - i)

theorem getD_drop (l : List Byte) (s i : Nat) :
    (l.drop s).getD i 0 = l.getD (s + i) 0 := by
  rw [List.getD_eq_getElem?_getD, List.getD_eq_getElem?_getD, List.getElem?_drop]

theorem from_le_take (l : List Byte) (w : Nat) (h : w ≤ l.length) :
    from_le_bytes (l.take w) = ∑ i ∈ Finset.range w, (l.getD i 0).val * 256 ^ i := by
  rw [from_le_bytes_eq_sum, List.length_take, Nat.min_eq_left h]
  refine Finset.sum_congr rfl fun i hi => ?_
  have hi' : i < w := Finset.mem_range.mp hi
  rw [List.getD_eq_getElem?_getD, List.getD_eq_getElem?_getD, List.getElem?_take,
    if_pos hi']

/-- The little-endian decode of the extracted slice is the spec's
positional-sum value. -/
theorem slice_decode_le (data : List Byte) (s w : Nat) (h : s + w ≤ data.length) :
    from_le_bytes ((data.drop s).take w) = specValueLE data s w := by
  rw [from_le_take _ _ (by rw [List.length_drop]; omega), specValueLE]
  exact Finset.sum_congr rfl fun i _ => by rw [getD_drop]

/-- The big-endian decode of the extracted slice is the spec's
positional-sum value with the byte at `s` most significant. -/
theorem slice_decode_be (data : List Byte) (s w : Nat) (h : s + w ≤ data.length) :
    from_be_bytes ((data.drop s).take w) = specValueBE data s w := by
  set t := (data.drop s).take w with ht
  have hlen : t.length = w := by
    rw [ht, List.length_take, List.length_drop]
    exact Nat.min_eq_left (by omega)
  have hgetD : ∀ i, i < w → t.getD i 0 = data.getD (s + i) 0 := by
    intro i hi
    rw [ht, List.getD_eq_getElem?_getD, List.getElem?_take, if_pos hi,
      ← List.getD_eq_getElem?_getD, getD_drop]
  have hrev : ∀ i, i < w → t.reverse.getD i 0 = t.getD (w - 1 - i) 0 := by
    intro i hi
    rw [List.getD_eq_getElem?_getD, List.getD_eq_getElem?_getD,
      List.getElem?_reverse (by omega : i < t.length), hlen]
  rw [from_be_bytes_eq_reverse, from_le_bytes_eq_sum, List.length_reverse, hlen]
  calc (∑ i ∈ Finset.range w, (t.reverse.getD i 0).val * 256 ^ i)
      = ∑ i ∈ Finset.range w,
          (t.getD (w - 1 - i) 0).val * 256 ^ (w - 1 - (w - 1 - i)) := by
        refine Finset.sum_congr rfl fun i hi => ?_
        have hi' := Finset.mem_range.mp hi
        rw [hrev i hi']
        congr 2
        omega
    _ = ∑ i ∈ Finset.range w, (t.getD i 0).val * 256 ^ (w - 1 - i) :=
        Finset.sum_range_reflect (fun j => (t.getD j 0).val * 256 ^ (w - 1 - j)) w
    _ = specValueBE data s w := by
        simp only [specValueBE]
        refine Finset.sum_congr rfl fun i hi => ?_
        rw [hgetD i (Finset.mem_range.mp hi)]

/-- The little-endian value of l fits in 8 * length bits. -/
theorem from_le_bytes_lt (l : List Byte) : from_le_bytes l < 256 ^ l.length := by
  induction l with
  | nil => simp [from_le_bytes]
  | cons b l ih =>
    have hb : b.val < 256 := b.isLt
    have hstep : from_le_bytes (b :: l) = b.val + 256 * from_le_bytes l := rfl
    rw [hstep, List.length_cons, pow_succ]
    calc b.val + 256 * from_le_bytes l < 256 + 256 * from_le_bytes l := by omega
      _ = 256 * (from_le_bytes l + 1) := by ring
      _ ≤ 256 * 256 ^ l.length := Nat.mul_le_mul_left 256 ih
      _ = 256 ^ l.length * 256 := by ring

theorem from_be_bytes_lt (l : List Byte) : from_be_bytes l < 256 ^ l.length := by
  rw [from_be_bytes_eq_reverse, ← List.length_reverse l]
  exact from_le_bytes_lt l.reverse

theorem pickU_lt (nLE : Bool) (e : Endian) (l : List Byte) :
    pickU nLE e l < 256 ^ l.length := by
  cases e with
  | LE => exact from_le_bytes_lt l
  | BE => exact from_be_bytes_lt l
  | NE =>
    cases nLE with
    | true => exact from_le_bytes_lt l
    | false => exact from_be_bytes_lt l

/-- Two's-complement facts: the signed reinterpretation of a w-byte
unsigned value is congruent to it mod 2^(8w) and lies in the signed
range. -/
theorem toSigned_spec (w : Nat) (hw : 0 < w) (v : Nat) (hv : v < 2 ^ (8 * w)) :
    toSigned w v % ((2 : Int) ^ (8 * w)) = (v : Int) ∧
    -((2 : Int) ^ (8 * w - 1)) ≤ toSigned w v ∧
    toSigned w v < (2 : Int) ^ (8 * w - 1) := by
  have hsplit : 8 * w = (8 * w - 1) + 1 := by omega
  have h2 : (2 : Int) ^ (8 * w) = 2 * 2 ^ (8 * w - 1) := by
    conv_lhs => rw [hsplit]
    rw [pow_succ]
    ring
  have hlt : (v : Int) < 2 ^ (8 * w) := by exact_mod_cast hv
  have hnn : (0 : Int) ≤ (v : Int) := Int.natCast_nonneg v
  unfold toSigned
  by_cases hc : v < 2 ^ (8 * w - 1)
  · rw [if_pos hc]
    have hc' : (v : Int) < 2 ^ (8 * w - 1) := by exact_mod_cast hc
    refine ⟨Int.emod_eq_of_lt hnn hlt, by omega, hc'⟩
  · rw [if_neg hc]
    have hge : (2 : Int) ^ (8 * w - 1) ≤ (v : Int) := by
      exact_mod_cast Nat.le_of_not_lt hc
    refine ⟨?_, by omega, by omega⟩
    have hsub : ((v : Int) - 2 ^ (8 * w)) % 2 ^ (8 * w) = (v : Int) % 2 ^ (8 * w) := by
      rw [Int.sub_emod, Int.emod_self, sub_zero, Int.emod_emod_of_dvd _ dvd_rfl]
    rw [hsub, Int.emod_eq_of_lt hnn hlt]

/-- Buffers agreeing on [s, s+w) yield the same extracted slice. -/
theorem take_drop_agree (d1 d2 : List Byte) (s w : Nat)
    (h1 : s + w ≤ d1.length) (h2 : s + w ≤ d2.length)
    (hag : ∀ i, i < w → d1.getD (s + i) 0 = d2.getD (s + i) 0) :
    (d1.drop s).take w = (d2.drop s).take w := by
  apply List.ext_getElem?
  intro n
  rw [List.getElem?_take, List.getElem?_take]
  by_cases hn : n < w
  · rw [if_pos hn, if_pos hn, List.getElem?_drop, List.getElem?_drop]
    have e1 : s + n < d1.length := by omega
    have e2 : s + n < d2.length := by omega
    have hval := hag n hn
    rw [List.getD_eq_getElem?_getD, List.getD_eq_getElem?_getD,
      List.getElem?_eq_getElem e1, List.getElem?_eq_getElem e2] at hval
    simp only [Option.getD_some] at hval
    rw [List.getElem?_eq_getElem e1, List.getElem?_eq_getElem e2, hval]
  · rw [if_neg hn, if_neg hn]

/-! ### The claims -/

/-- C1: each of the six decode operations, under every byte-order marker
and either native order, succeeds exactly when start + W ≤ len(buffer):
the exact-fit case succeeds and every shorter buffer fails. -/
theorem spec_C1_failure_boundary (T : BitConvEndian) (nLE : Bool)
    (data : List Byte) (s : Nat) :
    ((to_int16 T nLE data s).isOk = true ↔ s + 2 ≤ data.length) ∧
    ((to_int32 T nLE data s).isOk = true ↔ s + 4 ≤ data.length) ∧
    ((to_int64 T nLE data s).isOk = true ↔ s + 8 ≤ data.length) ∧
    ((to_uint16 T nLE data s).isOk = true ↔ s + 2 ≤ data.length) ∧
    ((to_uint32 T nLE data s).isOk = true ↔ s + 4 ≤ data.length) ∧
    ((to_uint64 T nLE data s).isOk = true ↔ s + 8 ≤ data.length) := by
  have key : ∀ (α : Type) (f : List Byte → α) (w : Nat) (msg : String),
      ((BitConvImpl f w data s msg).isOk = true ↔ s + w ≤ data.length) := by
    intro α f w msg
    constructor
    · intro hok
      by_contra hlt
      rw [BitConvImpl_err f w data s msg (by omega)] at hok
      simp [Except.isOk, Except.toBool] at hok
    · intro h
      rw [BitConvImpl_ok f w data s msg h]
      rfl
  exact ⟨key _ _ 2 _, key _ _ 4 _, key _ _ 8 _, key _ _ 2 _, key _ _ 4 _,
    key _ _ 8 _⟩

/-- C7: the spec's concrete scenarios, for any native order: uint16 LE at
offset 2 of the sample buffer is 65280, BE is 255, int16 LE is -256; on
eight 0xFF bytes, uint64 BE is 18446744073709551615 and int64 BE is -1. -/
theorem spec_C7_concrete (nLE : Bool) :
    to_uint16 Little nLE [15, 0, 0, 255, 3, 16, 39, 255, 255, 127] 2 =
      Except.ok 65280 ∧
    to_uint16 Big nLE [15, 0, 0, 255, 3, 16, 39, 255, 255, 127] 2 =
      Except.ok 255 ∧
    to_int16 Little nLE [15, 0, 0, 255, 3, 16, 39, 255, 255, 127] 2 =
      Except.ok (-256) ∧
    to_uint64 Big nLE [255, 255, 255, 255, 255, 255, 255, 255] 0 =
      Except.ok 18446744073709551615 ∧
    to_int64 Big nLE [255, 255, 255, 255, 255, 255, 255, 255] 0 =
      Except.ok (-1) := by
  cases nLE <;> exact ⟨rfl, rfl, rfl, rfl, rfl⟩

/-! ### Per-order decode values of the shared macro body -/

theorem impl_u_le (nLE : Bool) (w : Nat) (data : List Byte) (s : Nat)
    (msg : String) (h : s + w ≤ data.length) :
    BitConvImpl (pickU nLE Little.as_endian) w data s msg =
      Except.ok (specValueLE data s w) := by
  rw [BitConvImpl_ok _ _ _ _ _ h]
  show Except.ok (from_le_bytes ((data.drop s).take w)) = _
  rw [slice_decode_le data s w h]

theorem impl_u_be (nLE : Bool) (w : Nat) (data : List Byte) (s : Nat)
    (msg : String) (h : s + w ≤ data.length) :
    BitConvImpl (pickU nLE Big.as_endian) w data s msg =
      Except.ok (specValueBE data s w) := by
  rw [BitConvImpl_ok _ _ _ _ _ h]
  show Except.ok (from_be_bytes ((data.drop s).take w)) = _
  rw [slice_decode_be data s w h]

theorem impl_i_le (nLE : Bool) (w : Nat) (data : List Byte) (s : Nat)
    (msg : String) (h : s + w ≤ data.length) :
    BitConvImpl (pickI nLE w Little.as_endian) w data s msg =
      Except.ok (toSigned w (specValueLE data s w)) := by
  rw [BitConvImpl_ok _ _ _ _ _ h]
  show Except.ok (toSigned w (from_le_bytes ((data.drop s).take w))) = _
  rw [slice_decode_le data s w h]

theorem impl_i_be (nLE : Bool) (w : Nat) (data : List Byte) (s : Nat)
    (msg : String) (h : s + w ≤ data.length) :
    BitConvImpl (pickI nLE w Big.as_endian) w data s msg =
      Except.ok (toSigned w (specValueBE data s w)) := by
  rw [BitConvImpl_ok _ _ _ _ _ h]
  show Except.ok (toSigned w (from_be_bytes ((data.drop s).take w))) = _
  rw [slice_decode_be data s w h]

/-- C2: in range, the little-endian selector makes byte `start` least
significant and the big-endian selector makes it most significant, with
the positional-sum values `specValueLE`/`specValueBE`; the signed
operations apply the two's-complement reading `toSigned` of the same bit
pattern, for all three widths. -/
theorem spec_C2_endian_value (nLE : Bool) (data : List Byte) (s : Nat) :
    (s + 2 ≤ data.length →
      to_uint16 Little nLE data s = Except.ok (specValueLE data s 2) ∧
      to_uint16 Big nLE data s = Except.ok (specValueBE data s 2) ∧
      to_int16 Little nLE data s = Except.ok (toSigned 2 (specValueLE data s 2)) ∧
      to_int16 Big nLE data s = Except.ok (toSigned 2 (specValueBE data s 2))) ∧
    (s + 4 ≤ data.length →
      to_uint32 Little nLE data s = Except.ok (specValueLE data s 4) ∧
      to_uint32 Big nLE data s = Except.ok (specValueBE data s 4) ∧
      to_int32 Little nLE data s = Except.ok (toSigned 4 (specValueLE data s 4)) ∧
      to_int32 Big nLE data s = Except.ok (toSigned 4 (specValueBE data s 4))) ∧
    (s + 8 ≤ data.length →
      to_uint64 Little nLE data s = Except.ok (specValueLE data s 8) ∧
      to_uint64 Big nLE data s = Except.ok (specValueBE data s 8) ∧
      to_int64 Little nLE data s = Except.ok (toSigned 8 (specValueLE data s 8)) ∧
      to_int64 Big nLE data s = Except.ok (toSigned 8 (specValueBE data s 8))) := by
  refine ⟨fun h => ⟨?_, ?_, ?_, ?_⟩, fun h => ⟨?_, ?_, ?_, ?_⟩,
    fun h => ⟨?_, ?_, ?_, ?_⟩⟩
  · exact impl_u_le nLE 2 data s _ h
  · exact impl_u_be nLE 2 data s _ h
  · exact impl_i_le nLE 2 data s _ h
  · exact impl_i_be nLE 2 data s _ h
  · exact impl_u_le nLE 4 data s _ h
  · exact impl_u_be nLE 4 data s _ h
  · exact impl_i_le nLE 4 data s _ h
  · exact impl_i_be nLE 4 data s _ h
  · exact impl_u_le nLE 8 data s _ h
  · exact impl_u_be nLE 8 data s _ h
  · exact impl_i_le nLE 8 data s _ h
  · exact impl_i_be nLE 8 data s _ h

/-- C6: out of range, each decode operation fails with the error message
naming the width-read that failed, and hence returns no value at all. -/
theorem spec_C6_failure_message (T : BitConvEndian) (nLE : Bool)
    (data : List Byte) (s : Nat) :
    (data.length < s + 2 →
      to_int16 T nLE data s =
        Except.error "Failed to read i16. Invalid buffer provided." ∧
      to_uint16 T nLE data s =
        Except.error "Failed to read u16. Invalid buffer provided.") ∧
    (data.length < s + 4 →
      to_int32 T nLE data s =
        Except.error "Failed to read i32. Invalid buffer provided." ∧
      to_uint32 T nLE data s =
        Except.error "Failed to read u32. Invalid buffer provided.") ∧
    (data.length < s + 8 →
      to_int64 T nLE data s =
        Except.error "Failed to read i64. Invalid buffer provided." ∧
      to_uint64 T nLE data s =
        Except.error "Failed to read u64. Invalid buffer provided.") := by
  refine ⟨fun h => ⟨?_, ?_⟩, fun h => ⟨?_, ?_⟩, fun h => ⟨?_, ?_⟩⟩ <;>
    exact BitConvImpl_err _ _ _ _ _ h

/-- C10: the trait's default `as_endian` body returns the native order,
`Native` keeps that default, and any marker whose `as_endian` is
`Endian.NE` makes every operation agree with whichever of `Little`/`Big`
matches the host platform. -/
theorem spec_C10_native_default :
    Native.as_endian = Endian.NE ∧
    ∀ (T : BitConvEndian), T.as_endian = Endian.NE →
      ∀ (nLE : Bool) (data : List Byte) (s : Nat),
        to_int16 T nLE data s =
          to_int16 (if nLE then Little else Big) nLE data s ∧
        to_int32 T nLE data s =
          to_int32 (if nLE then Little else Big) nLE data s ∧
        to_int64 T nLE data s =
          to_int64 (if nLE then Little else Big) nLE data s ∧
        to_uint16 T nLE data s =
          to_uint16 (if nLE then Little else Big) nLE data s ∧
        to_uint32 T nLE data s =
          to_uint32 (if nLE then Little else Big) nLE data s ∧
        to_uint64 T nLE data s =
          to_uint64 (if nLE then Little else Big) nLE data s := by
  refine ⟨rfl, fun T hT nLE data s => ?_⟩
  have hU : pickU nLE Endian.NE =
      pickU nLE ((if nLE then Little else Big) : BitConvEndian).as_endian := by
    cases nLE <;> rfl
  have hI : ∀ w, pickI nLE w Endian.NE =
      pickI nLE w ((if nLE then Little else Big) : BitConvEndian).as_endian := by
    intro w
    cases nLE <;> rfl
  refine ⟨?_, ?_, ?_, ?_, ?_, ?_⟩
  · simp only [to_int16, hT]
    rw [hI 2]
  · simp only [to_int32, hT]
    rw [hI 4]
  · simp only [to_int64, hT]
    rw [hI 8]
  · simp only [to_uint16, hT]
    rw [hU]
  · simp only [to_uint32, hT]
    rw [hU]
  · simp only [to_uint64, hT]
    rw [hU]

/-! ### Exactness and order symmetry -/

theorem impl_agree {α : Type} (f : List Byte → α) (w : Nat) (d1 d2 : List Byte)
    (s : Nat) (msg : String) (h1 : s + w ≤ d1.length) (h2 : s + w ≤ d2.length)
    (hag : ∀ i, i < w → d1.getD (s + i) 0 = d2.getD (s + i) 0) :
    BitConvImpl f w d1 s msg = BitConvImpl f w d2 s msg := by
  rw [BitConvImpl_ok _ _ _ _ _ h1, BitConvImpl_ok _ _ _ _ _ h2,
    take_drop_agree d1 d2 s w h1 h2 hag]

/-- C3: for each operation, two in-range buffers agreeing on the bytes of
[start, start+W) decode to the same value, so bytes outside that range
never influence the result. -/
theorem spec_C3_exactness (T : BitConvEndian) (nLE : Bool)
    (d1 d2 : List Byte) (s : Nat) :
    (s + 2 ≤ d1.length → s + 2 ≤ d2.length →
      (∀ i, i < 2 → d1.getD (s + i) 0 = d2.getD (s + i) 0) →
      to_int16 T nLE d1 s = to_int16 T nLE d2 s ∧
      to_uint16 T nLE d1 s = to_uint16 T nLE d2 s) ∧
    (s + 4 ≤ d1.length → s + 4 ≤ d2.length →
      (∀ i, i < 4 → d1.getD (s + i) 0 = d2.getD (s + i) 0) →
      to_int32 T nLE d1 s = to_int32 T nLE d2 s ∧
      to_uint32 T nLE d1 s = to_uint32 T nLE d2 s) ∧
    (s + 8 ≤ d1.length → s + 8 ≤ d2.length →
      (∀ i, i < 8 → d1.getD (s + i) 0 = d2.getD (s + i) 0) →
      to_int64 T nLE d1 s = to_int64 T nLE d2 s ∧
      to_uint64 T nLE d1 s = to_uint64 T nLE d2 s) := by
  refine ⟨fun h1 h2 hag => ⟨?_, ?_⟩, fun h1 h2 hag => ⟨?_, ?_⟩,
    fun h1 h2 hag => ⟨?_, ?_⟩⟩ <;>
    exact impl_agree _ _ d1 d2 s _ h1 h2 hag

theorem slice_full (data : List Byte) (w : Nat) (h : data.length = w) :
    (data.drop 0).take w = data := by
  rw [List.drop_zero, ← h, List.take_length]

theorem from_le_eq_be_reverse (l : List Byte) :
    from_le_bytes l = from_be_bytes l.reverse := by
  rw [from_be_bytes_eq_reverse, List.reverse_reverse]

theorem symm_impl_u_lb (nLE : Bool) (w : Nat) (data : List Byte)
    (m1 m2 : String) (h : data.length = w) :
    BitConvImpl (pickU nLE Little.as_endian) w data 0 m1 =
      BitConvImpl (pickU nLE Big.as_endian) w data.reverse 0 m2 := by
  have hr : data.reverse.length = w := by rw [List.length_reverse]; exact h
  rw [BitConvImpl_ok _ _ _ _ _ (by omega), BitConvImpl_ok _ _ _ _ _ (by omega),
    slice_full data w h, slice_full data.reverse w hr]
  show Except.ok (from_le_bytes data) = Except.ok (from_be_bytes data.reverse)
  rw [from_le_eq_be_reverse]

theorem symm_impl_u_bl (nLE : Bool) (w : Nat) (data : List Byte)
    (m1 m2 : String) (h : data.length = w) :
    BitConvImpl (pickU nLE Big.as_endian) w data 0 m1 =
      BitConvImpl (pickU nLE Little.as_endian) w data.reverse 0 m2 := by
  have hr : data.reverse.length = w := by rw [List.length_reverse]; exact h
  rw [BitConvImpl_ok _ _ _ _ _ (by omega), BitConvImpl_ok _ _ _ _ _ (by omega),
    slice_full data w h, slice_full data.reverse w hr]
  show Except.ok (from_be_bytes data) = Except.ok (from_le_bytes data.reverse)
  rw [from_be_bytes_eq_reverse]

theorem symm_impl_i_lb (nLE : Bool) (w : Nat) (data : List Byte)
    (m1 m2 : String) (h : data.length = w) :
    BitConvImpl (pickI nLE w Little.as_endian) w data 0 m1 =
      BitConvImpl (pickI nLE w Big.as_endian) w data.reverse 0 m2 := by
  have hr : data.reverse.length = w := by rw [List.length_reverse]; exact h
  rw [BitConvImpl_ok _ _ _ _ _ (by omega), BitConvImpl_ok _ _ _ _ _ (by omega),
    slice_full data w h, slice_full data.reverse w hr]
  show Except.ok (toSigned w (from_le_bytes data)) =
    Except.ok (toSigned w (from_be_bytes data.reverse))
  rw [from_le_eq_be_reverse]

theorem symm_impl_i_bl (nLE : Bool) (w : Nat) (data : List Byte)
    (m1 m2 : String) (h : data.length = w) :
    BitConvImpl (pickI nLE w Big.as_endian) w data 0 m1 =
      BitConvImpl (pickI nLE w Little.as_endian) w data.reverse 0 m2 := by
  have hr : data.reverse.length = w := by rw [List.length_reverse]; exact h
  rw [BitConvImpl_ok _ _ _ _ _ (by omega), BitConvImpl_ok _ _ _ _ _ (by omega),
    slice_full data w h, slice_full data.reverse w hr]
  show Except.ok (toSigned w (from_be_bytes data)) =
    Except.ok (toSigned w (from_le_bytes data.reverse))
  rw [from_be_bytes_eq_reverse]

/-- C4: decoding a buffer of exactly W bytes as little-endian agrees with
decoding the byte-reversed buffer as big-endian, and vice versa, for all
widths and both signedness variants. -/
theorem spec_C4_order_symmetry (nLE : Bool) (data : List Byte) :
    (data.length = 2 →
      to_uint16 Little nLE data 0 = to_uint16 Big nLE data.reverse 0 ∧
      to_uint16 Big nLE data 0 = to_uint16 Little nLE data.reverse 0 ∧
      to_int16 Little nLE data 0 = to_int16 Big nLE data.reverse 0 ∧
      to_int16 Big nLE data 0 = to_int16 Little nLE data.reverse 0) ∧
    (data.length = 4 →
      to_uint32 Little nLE data 0 = to_uint32 Big nLE data.reverse 0 ∧
      to_uint32 Big nLE data 0 = to_uint32 Little nLE data.reverse 0 ∧
      to_int32 Little nLE data 0 = to_int32 Big nLE data.reverse 0 ∧
      to_int32 Big nLE data 0 = to_int32 Little nLE data.reverse 0) ∧
    (data.length = 8 →
      to_uint64 Little nLE data 0 = to_uint64 Big nLE data.reverse 0 ∧
      to_uint64 Big nLE data 0 = to_uint64 Little nLE data.reverse 0 ∧
      to_int64 Little nLE data 0 = to_int64 Big nLE data.reverse 0 ∧
      to_int64 Big nLE data 0 = to_int64 Little nLE data.reverse 0) := by
  refine ⟨fun h => ⟨?_, ?_, ?_, ?_⟩, fun h => ⟨?_, ?_, ?_, ?_⟩,
    fun h => ⟨?_, ?_, ?_, ?_⟩⟩
  · exact symm_impl_u_lb nLE 2 data _ _ h
  · exact symm_impl_u_bl nLE 2 data _ _ h
  · exact symm_impl_i_lb nLE 2 data _ _ h
  · exact symm_impl_i_bl nLE 2 data _ _ h
  · exact symm_impl_u_lb nLE 4 data _ _ h
  · exact symm_impl_u_bl nLE 4 data _ _ h
  · exact symm_impl_i_lb nLE 4 data _ _ h
  · exact symm_impl_i_bl nLE 4 data _ _ h
  · exact symm_impl_u_lb nLE 8 data _ _ h
  · exact symm_impl_u_bl nLE 8 data _ _ h
  · exact symm_impl_i_lb nLE 8 data _ _ h
  · exact symm_impl_i_bl nLE 8 data _ _ h

/-! ### Range boundary values -/

theorem specValueLE_const (data : List Byte) (s w : Nat) (c : Byte)
    (hc : ∀ i, i < w → data.getD (s + i) 0 = c) :
    specValueLE data s w = ∑ i ∈ Finset.range w, c.val * 256 ^ i := by
  simp only [specValueLE]
  exact Finset.sum_congr rfl fun i hi => by rw [hc i (Finset.mem_range.mp hi)]

theorem specValueBE_const (data : List Byte) (s w : Nat) (c : Byte)
    (hc : ∀ i, i < w → data.getD (s + i) 0 = c) :
    specValueBE data s w = ∑ i ∈ Finset.range w, c.val * 256 ^ (w - 1 - i) := by
  simp only [specValueBE]
  exact Finset.sum_congr rfl fun i hi => by rw [hc i (Finset.mem_range.mp hi)]

theorem sum_ff_le (w : Nat) :
    (∑ i ∈ Finset.range w, 255 * 256 ^ i) = 256 ^ w - 1 := by
  induction w with
  | zero => simp
  | succ n ih =>
    rw [Finset.sum_range_succ, ih, pow_succ]
    have h1 : 1 ≤ 256 ^ n := Nat.one_le_pow n 256 (by norm_num)
    omega

theorem sum_ff_be (w : Nat) :
    (∑ i ∈ Finset.range w, 255 * 256 ^ (w - 1 - i)) = 256 ^ w - 1 := by
  rw [← sum_ff_le w]
  exact Finset.sum_range_reflect (fun j => 255 * 256 ^ j) w

theorem specValueLE_zero (data : List Byte) (s w : Nat)
    (hc : ∀ i, i < w → data.getD (s + i) 0 = 0) :
    specValueLE data s w = 0 := by
  rw [specValueLE_const data s w 0 hc]
  simp

theorem specValueBE_zero (data : List Byte) (s w : Nat)
    (hc : ∀ i, i < w → data.getD (s + i) 0 = 0) :
    specValueBE data s w = 0 := by
  rw [specValueBE_const data s w 0 hc]
  simp

theorem specValueLE_ff (data : List Byte) (s w : Nat)
    (hc : ∀ i, i < w → data.getD (s + i) 0 = 255) :
    specValueLE data s w = 256 ^ w - 1 := by
  rw [specValueLE_const data s w 255 hc]
  exact sum_ff_le w

theorem specValueBE_ff (data : List Byte) (s w : Nat)
    (hc : ∀ i, i < w → data.getD (s + i) 0 = 255) :
    specValueBE data s w = 256 ^ w - 1 := by
  rw [specValueBE_const data s w 255 hc]
  exact sum_ff_be w

/-- C5: for each width and either explicit byte order, all-0x00 bytes
decode to 0 both signed and unsigned, and all-0xFF bytes decode to the
unsigned maximum 2^(8W) - 1 and the signed value -1. -/
theorem spec_C5_range_boundary (nLE : Bool) (data : List Byte) (s : Nat) :
    (s + 2 ≤ data.length → (∀ i, i < 2 → data.getD (s + i) 0 = 0) →
      to_uint16 Little nLE data s = Except.ok 0 ∧
      to_uint16 Big nLE data s = Except.ok 0 ∧
      to_int16 Little nLE data s = Except.ok 0 ∧
      to_int16 Big nLE data s = Except.ok 0) ∧
    (s + 2 ≤ data.length → (∀ i, i < 2 → data.getD (s + i) 0 = 255) →
      to_uint16 Little nLE data s = Except.ok 65535 ∧
      to_uint16 Big nLE data s = Except.ok 65535 ∧
      to_int16 Little nLE data s = Except.ok (-1) ∧
      to_int16 Big nLE data s = Except.ok (-1)) ∧
    (s + 4 ≤ data.length → (∀ i, i < 4 → data.getD (s + i) 0 = 0) →
      to_uint32 Little nLE data s = Except.ok 0 ∧
      to_uint32 Big nLE data s = Except.ok 0 ∧
      to_int32 Little nLE data s = Except.ok 0 ∧
      to_int32 Big nLE data s = Except.ok 0) ∧
    (s + 4 ≤ data.length → (∀ i, i < 4 → data.getD (s + i) 0 = 255) →
      to_uint32 Little nLE data s = Except.ok 4294967295 ∧
      to_uint32 Big nLE data s = Except.ok 4294967295 ∧
      to_int32 Little nLE data s = Except.ok (-1) ∧
      to_int32 Big nLE data s = Except.ok (-1)) ∧
    (s + 8 ≤ data.length → (∀ i, i < 8 → data.getD (s + i) 0 = 0) →
      to_uint64 Little nLE data s = Except.ok 0 ∧
      to_uint64 Big nLE data s = Except.ok 0 ∧
      to_int64 Little nLE data s = Except.ok 0 ∧
      to_int64 Big nLE data s = Except.ok 0) ∧
    (s + 8 ≤ data.length → (∀ i, i < 8 → data.getD (s + i) 0 = 255) →
      to_uint64 Little nLE data s = Except.ok 18446744073709551615 ∧
      to_uint64 Big nLE data s = Except.ok 18446744073709551615 ∧
      to_int64 Little nLE data s = Except.ok (-1) ∧
      to_int64 Big nLE data s = Except.ok (-1)) := by
  refine ⟨fun h hc => ?_, fun h hc => ?_, fun h hc => ?_, fun h hc => ?_,
    fun h hc => ?_, fun h hc => ?_⟩
  · have hl := specValueLE_zero data s 2 hc
    have hb := specValueBE_zero data s 2 hc
    exact ⟨(impl_u_le nLE 2 data s _ h).trans (by rw [hl]),
      (impl_u_be nLE 2 data s _ h).trans (by rw [hb]),
      (impl_i_le nLE 2 data s _ h).trans (by rw [hl]; rfl),
      (impl_i_be nLE 2 data s _ h).trans (by rw [hb]; rfl)⟩
  · have hl := specValueLE_ff data s 2 hc
    have hb := specValueBE_ff data s 2 hc
    rw [show (256 : Nat) ^ 2 - 1 = 65535 from by norm_num] at hl hb
    exact ⟨(impl_u_le nLE 2 data s _ h).trans (by rw [hl]),
      (impl_u_be nLE 2 data s _ h).trans (by rw [hb]),
      (impl_i_le nLE 2 data s _ h).trans (by rw [hl]; rfl),
      (impl_i_be nLE 2 data s _ h).trans (by rw [hb]; rfl)⟩
  · have hl := specValueLE_zero data s 4 hc
    have hb := specValueBE_zero data s 4 hc
    exact ⟨(impl_u_le nLE 4 data s _ h).trans (by rw [hl]),
      (impl_u_be nLE 4 data s _ h).trans (by rw [hb]),
      (impl_i_le nLE 4 data s _ h).trans (by rw [hl]; rfl),
      (impl_i_be nLE 4 data s _ h).trans (by rw [hb]; rfl)⟩
  · have hl := specValueLE_ff data s 4 hc
    have hb := specValueBE_ff data s 4 hc
    rw [show (256 : Nat) ^ 4 - 1 = 4294967295 from by norm_num] at hl hb
    exact ⟨(impl_u_le nLE 4 data s _ h).trans (by rw [hl]),
      (impl_u_be nLE 4 data s _ h).trans (by rw [hb]),
      (impl_i_le nLE 4 data s _ h).trans (by rw [hl]; rfl),
      (impl_i_be nLE 4 data s _ h).trans (by rw [hb]; rfl)⟩
  · have hl := specValueLE_zero data s 8 hc
    have hb := specValueBE_zero data s 8 hc
    exact ⟨(impl_u_le nLE 8 data s _ h).trans (by rw [hl]),
      (impl_u_be nLE 8 data s _ h).trans (by rw [hb]),
      (impl_i_le nLE 8 data s _ h).trans (by rw [hl]; rfl),
      (impl_i_be nLE 8 data s _ h).trans (by rw [hb]; rfl)⟩
  · have hl := specValueLE_ff data s 8 hc
    have hb := specValueBE_ff data s 8 hc
    rw [show (256 : Nat) ^ 8 - 1 = 18446744073709551615 from by norm_num] at hl hb
    exact ⟨(impl_u_le nLE 8 data s _ h).trans (by rw [hl]),
      (impl_u_be nLE 8 data s _ h).trans (by rw [hb]),
      (impl_i_le nLE 8 data s _ h).trans (by rw [hl]; rfl),
      (impl_i_be nLE 8 data s _ h).trans (by rw [hb]; rfl)⟩

/-! ### Signed/unsigned congruence and unwrap safety -/

theorem impl_signed_unsigned (T : BitConvEndian) (nLE : Bool) (w : Nat)
    (hw : 0 < w) (data : List Byte) (s : Nat) (m1 m2 : String)
    (h : s + w ≤ data.length) :
    ∃ u v, BitConvImpl (pickU nLE T.as_endian) w data s m1 = Except.ok u ∧
      BitConvImpl (pickI nLE w T.as_endian) w data s m2 = Except.ok v ∧
      v % ((2 : Int) ^ (8 * w)) = (u : Int) ∧
      -((2 : Int) ^ (8 * w - 1)) ≤ v ∧ v < (2 : Int) ^ (8 * w - 1) ∧
      u < 2 ^ (8 * w) := by
  have hlen : ((data.drop s).take w).length = w := by
    rw [List.length_take, List.length_drop]
    exact Nat.min_eq_left (by omega)
  have hub : pickU nLE T.as_endian ((data.drop s).take w) < 2 ^ (8 * w) := by
    have hp := pickU_lt nLE T.as_endian ((data.drop s).take w)
    rw [hlen] at hp
    calc pickU nLE T.as_endian ((data.drop s).take w) < 256 ^ w := hp
      _ = 2 ^ (8 * w) := by
        rw [show (256 : Nat) = 2 ^ 8 from by norm_num, ← pow_mul]
  obtain ⟨h1, h2, h3⟩ := toSigned_spec w hw _ hub
  exact ⟨_, _, BitConvImpl_ok _ _ _ _ _ h, BitConvImpl_ok _ _ _ _ _ h,
    h1, h2, h3, hub⟩

/-- C8: in range, under any marker and native order, the signed result is
the two's-complement reinterpretation of the unsigned result of the same
width: congruent mod 2^N, with the signed result in [-2^(N-1), 2^(N-1))
and the unsigned result in [0, 2^N). -/
theorem spec_C8_signed_unsigned (T : BitConvEndian) (nLE : Bool)
    (data : List Byte) (s : Nat) :
    (s + 2 ≤ data.length → ∃ u v,
      to_uint16 T nLE data s = Except.ok u ∧
      to_int16 T nLE data s = Except.ok v ∧
      v % ((2 : Int) ^ 16) = (u : Int) ∧
      -((2 : Int) ^ 15) ≤ v ∧ v < (2 : Int) ^ 15 ∧ u < 2 ^ 16) ∧
    (s + 4 ≤ data.length → ∃ u v,
      to_uint32 T nLE data s = Except.ok u ∧
      to_int32 T nLE data s = Except.ok v ∧
      v % ((2 : Int) ^ 32) = (u : Int) ∧
      -((2 : Int) ^ 31) ≤ v ∧ v < (2 : Int) ^ 31 ∧ u < 2 ^ 32) ∧
    (s + 8 ≤ data.length → ∃ u v,
      to_uint64 T nLE data s = Except.ok u ∧
      to_int64 T nLE data s = Except.ok v ∧
      v % ((2 : Int) ^ 64) = (u : Int) ∧
      -((2 : Int) ^ 63) ≤ v ∧ v < (2 : Int) ^ 63 ∧ u < 2 ^ 64) := by
  refine ⟨fun h => ?_, fun h => ?_, fun h => ?_⟩
  · exact impl_signed_unsigned T nLE 2 (by norm_num) data s _ _ h
  · exact impl_signed_unsigned T nLE 4 (by norm_num) data s _ _ h
  · exact impl_signed_unsigned T nLE 8 (by norm_num) data s _ _ h

theorem impl_ne_unwrap {α : Type} (f : List Byte → α) (w : Nat)
    (data : List Byte) (s : Nat) (msg : String) (hmsg : msg ≠ UNWRAP_MSG) :
    BitConvImpl f w data s msg ≠ Except.error UNWRAP_MSG := by
  rcases le_or_lt (s + w) data.length with h | h
  · rw [BitConvImpl_ok _ _ _ _ _ h]
    exact fun hc => Except.noConfusion hc
  · rw [BitConvImpl_err _ _ _ _ _ h]
    intro hc
    injection hc with hmm
    exact hmsg hmm

/-- C9: whenever both slice operations succeed the slice handed to the
decode function has exactly W bytes, so the array conversion's unwrap
never fires; each operation can only fail through the single expect, and
under start + W ≤ len(buffer) no failure is reachable at all. -/
theorem spec_C9_unwrap_safe :
    (∀ (data : List Byte) (s w : Nat) (rest bs : List Byte),
      getFrom data s = some rest → getTo rest w = some bs →
      bs.length = w ∧ tryIntoArray w bs = some bs) ∧
    (∀ (T : BitConvEndian) (nLE : Bool) (data : List Byte) (s : Nat),
      to_int16 T nLE data s ≠ Except.error UNWRAP_MSG ∧
      to_int32 T nLE data s ≠ Except.error UNWRAP_MSG ∧
      to_int64 T nLE data s ≠ Except.error UNWRAP_MSG ∧
      to_uint16 T nLE data s ≠ Except.error UNWRAP_MSG ∧
      to_uint32 T nLE data s ≠ Except.error UNWRAP_MSG ∧
      to_uint64 T nLE data s ≠ Except.error UNWRAP_MSG) ∧
    (∀ (T : BitConvEndian) (nLE : Bool) (data : List Byte) (s : Nat),
      (s + 2 ≤ data.length → (to_int16 T nLE data s).isOk = true ∧
        (to_uint16 T nLE data s).isOk = true) ∧
      (s + 4 ≤ data.length → (to_int32 T nLE data s).isOk = true ∧
        (to_uint32 T nLE data s).isOk = true) ∧
      (s + 8 ≤ data.length → (to_int64 T nLE data s).isOk = true ∧
        (to_uint64 T nLE data s).isOk = true)) := by
  refine ⟨?_, ?_, ?_⟩
  · intro data s w rest bs hf ht
    have hs : s ≤ data.length ∧ rest = data.drop s := by
      by_cases hcond : s ≤ data.length
      · rw [getFrom, if_pos hcond] at hf
        exact ⟨hcond, (Option.some.inj hf).symm⟩
      · rw [getFrom, if_neg hcond] at hf
        exact absurd hf (Option.noConfusion)
    have hw : w ≤ rest.length ∧ bs = rest.take w := by
      by_cases hcond : w ≤ rest.length
      · rw [getTo, if_pos hcond] at ht
        exact ⟨hcond, (Option.some.inj ht).symm⟩
      · rw [getTo, if_neg hcond] at ht
        exact absurd ht (Option.noConfusion)
    have hlen : bs.length = w := by
      rw [hw.2, List.length_take]
      exact Nat.min_eq_left hw.1
    exact ⟨hlen, by rw [tryIntoArray, if_pos hlen]⟩
  · intro T nLE data s
    have hne : ∀ i : Nat, i < 6 → ERROR_MESSAGES.getD i "" ≠ UNWRAP_MSG := by
      intro i hi
      interval_cases i <;> decide
    exact ⟨impl_ne_unwrap _ 2 data s _ (hne 0 (by norm_num)),
      impl_ne_unwrap _ 4 data s _ (hne 1 (by norm_num)),
      impl_ne_unwrap _ 8 data s _ (hne 2 (by norm_num)),
      impl_ne_unwrap _ 2 data s _ (hne 3 (by norm_num)),
      impl_ne_unwrap _ 4 data s _ (hne 4 (by norm_num)),
      impl_ne_unwrap _ 8 data s _ (hne 5 (by norm_num))⟩
  · intro T nLE data s
    have key : ∀ (α : Type) (f : List Byte → α) (w : Nat) (msg : String),
        s + w ≤ data.length → (BitConvImpl f w data s msg).isOk = true := by
      intro α f w msg h
      rw [BitConvImpl_ok _ _ _ _ _ h]
      rfl
    exact ⟨fun h => ⟨key _ _ 2 _ h, key _ _ 2 _ h⟩,
      fun h => ⟨key _ _ 4 _ h, key _ _ 4 _ h⟩,
      fun h => ⟨key _ _ 8 _ h, key _ _ 8 _ h⟩⟩

/-! ### Witnesses instantiating the claims at concrete inputs -/

theorem spec_C1_witness : (to_uint16 Little true [1, 2] 0).isOk = true :=
  ((spec_C1_failure_boundary Little true [1, 2] 0).2.2.2.1).mpr (by decide)

theorem spec_C2_witness : to_uint16 Little true [1, 2] 0 = Except.ok 513 := by
  have h := ((spec_C2_endian_value true [1, 2] 0).1 (by decide)).1
  rw [h, show specValueLE [1, 2] 0 2 = 513 from by decide]

theorem spec_C3_witness :
    to_uint16 Little true [0, 1, 2] 1 = to_uint16 Little true [7, 1, 2] 1 :=
  ((spec_C3_exactness Little true [0, 1, 2] [7, 1, 2] 1).1 (by decide) (by decide)
    (fun i hi => by interval_cases i <;> rfl)).2

theorem spec_C4_witness :
    to_uint16 Little true [1, 2] 0 =
      to_uint16 Big true ([1, 2] : List Byte).reverse 0 :=
  ((spec_C4_order_symmetry true [1, 2]).1 rfl).1

theorem spec_C5_witness :
    to_uint16 Little true [0, 0] 0 = Except.ok 0 ∧
    to_int16 Little true [255, 255] 0 = Except.ok (-1) :=
  ⟨((spec_C5_range_boundary true [0, 0] 0).1 (by decide)
      (fun i hi => by interval_cases i <;> rfl)).1,
    ((spec_C5_range_boundary true [255, 255] 0).2.1 (by decide)
      (fun i hi => by interval_cases i <;> rfl)).2.2.1⟩

theorem spec_C6_witness :
    to_int16 Little true [] 0 =
      Except.error "Failed to read i16. Invalid buffer provided." :=
  ((spec_C6_failure_message Little true [] 0).1 (by decide)).1

theorem spec_C7_witness :
    to_uint16 Little true [15, 0, 0, 255, 3, 16, 39, 255, 255, 127] 2 =
      Except.ok 65280 :=
  (spec_C7_concrete true).1

theorem spec_C8_witness :
    ∃ u v, to_uint16 Little true [255, 255] 0 = Except.ok u ∧
      to_int16 Little true [255, 255] 0 = Except.ok v ∧
      v % ((2 : Int) ^ 16) = (u : Int) ∧
      -((2 : Int) ^ 15) ≤ v ∧ v < (2 : Int) ^ 15 ∧ u < 2 ^ 16 :=
  (spec_C8_signed_unsigned Little true [255, 255] 0).1 (by decide)

theorem spec_C9_witness : (to_int16 Little true [1, 2] 0).isOk = true :=
  ((spec_C9_unwrap_safe.2.2 Little true [1, 2] 0).1 (by decide)).1

theorem spec_C10_witness :
    to_uint16 Native true [1, 2] 0 = to_uint16 Little true [1, 2] 0 :=
  (spec_C10_native_default.2 Native rfl true [1, 2] 0).2.2.2.1

end BitConv
